import Mathlib

/-!
Verification of the read-only SQLite query engine (`src/main.rs`, `src/sqlite/db.rs`).

The development is a shallow embedding in two layers, mirroring the two layers of
the source:

* a byte-level layer for the codec and page decoder (`Page::get_varint`,
  `Page::get_be_bytes`, `Page::parse_record_values`, `Page::from_data`,
  `Page::get_record`): byte buffers are `List Nat`, machine integers are `Nat`
  with explicit `% 2 ^ 64` where the Rust code can wrap, and operations that can
  panic in Rust (out-of-range indexing / slicing, `usize` subtraction underflow,
  explicit `panic!`) return `none`;

* a tree-level layer for the B-tree navigator (`Database::traverse_btree`,
  `Database::search_table_btree`, `Database::traverse_index`,
  `Database::fetch_records_by_rowids` and the `select count(*)` handler of
  `main.rs`): a table or index B-tree already materialised from its pages is an
  inductive tree whose children carry their on-disk page numbers, so that the
  source's treatment of child page number 0 (`load_page` bails; `traverse_btree`
  skips) is represented; `load_page` failure is an `Except.error` with the
  message of `Database::load_page`.

Index keys are byte lists (`Rust str` comparison is byte-wise lexicographic).
-/

namespace Sqlite

/-! ### Byte codec (db.rs, `Page::get_varint`, `Page::get_be_bytes`) -/

/-- One pass of the loop in `Page::get_varint` (db.rs 114-126) over the bytes
`data[*offset..]`.  Returns the accumulated value together with `some n` when a
byte with the continuation bit clear was found after consuming `n` bytes
(`n = i + 1` in the source), or `none` when the buffer was exhausted first.
`value <<= 7` on a `u64` discards the shifted-out bits, hence
`value * 128 % 2 ^ 64`; the following addition cannot overflow because the low
seven bits are zero.  On a byte `b`, `b & 0x7F` is `b % 128` and
`b & 0x80 == 0` is `b % 256 < 128` (`b % 256` being the `u8` reading of the
entry). -/
def varintLoop (value : Nat) : List Nat → Nat × Option Nat
  | [] => (value, none)
  | b :: rest =>
      let value1 := value * 128 % 2 ^ 64 + b % 128
      if b % 256 < 128 then (value1, some 1)
      else
        match varintLoop value1 rest with
        | (v, some n) => (v, some (n + 1))
        | (v, none) => (v, none)

/-- Model of `Page::get_varint` (db.rs 114-126).  Iterates over `data[*offset..]`; on a
terminating byte it returns the value and `offset + i + 1`; when the loop falls
off the end of the buffer it returns the accumulated value and
`offset + data.len()` — the *full* buffer length, exactly as in the source
(`*offset += data.len()`). -/
def get_varint (data : List Nat) (offset : Nat) : Nat × Nat :=
  match varintLoop 0 (data.drop offset) with
  | (v, some n) => (v, offset + n)
  | (v, none) => (v, offset + data.length)

/-- The same varint loop expressed on a remaining-bytes list: returns the value
and the bytes left after the consumed prefix.  Used by the record parser below,
where the source advances a persistent offset into the record-header slice; the
bytes not yet consumed are exactly `slice.drop offset`. -/
def varintTake (value : Nat) : List Nat → Nat × List Nat
  | [] => (value, [])
  | b :: rest =>
      let value1 := value * 128 % 2 ^ 64 + b % 128
      if b % 256 < 128 then (value1, rest) else varintTake value1 rest

/-- Model of `Page::get_be_bytes` (db.rs 132-144).  Takes the next `n` bytes from the
iterator and right-aligns them in an 8-byte zero-filled buffer
(`bytes[8 - n + i] = byte`), returning the buffer and the rest of the iterator.
`None` from the iterator is the `Err("Unexpected end of data ...")` path; the
index arithmetic `8 - n + i` requires `n ≤ 8` (all call sites pass
`n ∈ {1,2,3,4,6,8}`). -/
def get_be_bytes (n : Nat) (data : List Nat) : Option (List Nat × List Nat) :=
  if 8 < n then none
  else if data.length < n then none
  else some (List.replicate (8 - n) 0 ++ data.take n, data.drop n)

/-- Big-endian value of a byte list (`u32::from_be_bytes` / the integer part of
`i64::from_be_bytes`). -/
def beNat (l : List Nat) : Nat :=
  l.foldl (fun acc b => acc * 256 + b) 0

/-- Model of `i64::from_be_bytes` on an 8-byte buffer: the two's-complement reading of
the big-endian value. -/
def i64_from_be_bytes (bytes : List Nat) : Int :=
  let v := beNat bytes
  if v < 2 ^ 63 then (v : Int) else (v : Int) - 2 ^ 64

/-! ### Record values (db.rs, `RecordValue`, `Record`, `Page::parse_record_values`) -/

/-- Model of `RecordValue` (db.rs 23-31).  `real` keeps the raw 8 bytes of the IEEE
binary64 as their big-endian value (`f64::from_be_bytes` is a bit-level
reinterpretation); `text` keeps the raw bytes (the source's lossy UTF-8
conversion only matters for display). -/
inductive RecordValue where
  | null : RecordValue
  | int (v : Int) : RecordValue
  | real (bits : Nat) : RecordValue
  | text (s : List Nat) : RecordValue
  | blob (b : List Nat) : RecordValue
  deriving DecidableEq, Repr

/-- Model of `Record` (db.rs 33-38): rowid plus decoded column values. -/
structure Record where
  id : Nat
  values : List RecordValue
  deriving DecidableEq, Repr

/-- The `while header_offset < header_size - 1` loop of
`Page::parse_record_values` (db.rs 162-201), with the serial-type header area
represented by its not-yet-consumed suffix (`header = slice.drop header_offset`;
the loop bound `header_size - 1` is exactly the length of the slice
`data[header_start..header_end]`, so the loop continues precisely while the
suffix is nonempty).  A failing `get_be_bytes` is the source's early
`return (values, ...)` with the values collected so far; serial types 10 and 11
hit `panic!("Invalid serial type")`, modelled as `none`. -/
def parseLoop : List Nat → List Nat → Option (List RecordValue)
  | [], _ => some []
  | b :: hrest, valuesIter =>
      let st := (varintTake 0 (b :: hrest)).1
      let header1 := (varintTake 0 (b :: hrest)).2
      if st = 0 then (parseLoop header1 valuesIter).map (RecordValue.null :: ·)
      else if st ≤ 6 then
        let n := if st = 5 then 6 else if st = 6 then 8 else st
        match get_be_bytes n valuesIter with
        | some (bytes, rest) =>
            (parseLoop header1 rest).map (RecordValue.int (i64_from_be_bytes bytes) :: ·)
        | none => some []
      else if st = 7 then
        match get_be_bytes 8 valuesIter with
        | some (bytes, rest) =>
            (parseLoop header1 rest).map (RecordValue.real (beNat bytes) :: ·)
        | none => some []
      else if st = 8 then (parseLoop header1 valuesIter).map (RecordValue.int 0 :: ·)
      else if st = 9 then (parseLoop header1 valuesIter).map (RecordValue.int 1 :: ·)
      else if 12 ≤ st then
        let len := (st - 12) / 2
        let v := if st % 2 = 0 then RecordValue.blob (valuesIter.take len)
                 else RecordValue.text (valuesIter.take len)
        (parseLoop header1 (valuesIter.drop len)).map (v :: ·)
      else none
  termination_by header _ => header.length
  decreasing_by
    all_goals
      have hlen : ∀ (l : List Nat) (v : Nat), ((varintTake v l).2).length ≤ l.length := by
        intro l
        induction l with
        | nil => intro _w; simp [varintTake]
        | cons x xs ih =>
            intro v
            simp only [varintTake]
            split
            · simp
            · exact le_trans (ih _) (Nat.le_succ _)
    all_goals
      have hcons : ((varintTake 0 (b :: hrest)).2).length ≤ hrest.length := by
        simp only [varintTake]
        split
        · simp
        · exact hlen hrest _
    all_goals
      simpa using Nat.lt_succ_of_le hcons

/-- Model of `Page::parse_record_values` (db.rs 149-206).  Reads the header-size varint,
then runs the serial-type loop with `data[header_start..header_end]` as header
area and `data[header_end..]` as values segment.  The Rust code panics when
`header_size` is 0 (`header_size - 1` underflows either in `header_end` or in
the loop bound) and when `header_end` exceeds the buffer (slicing panics);
both are `none` here.  The byte count returned by the source is unused by every
caller and dropped. -/
def parse_record_values (data : List Nat) : Option (List RecordValue) :=
  let headerSize := (get_varint data 0).1
  let headerStart := (get_varint data 0).2
  if headerSize = 0 then none
  else
    let headerEnd := headerStart + headerSize - 1
    if data.length < headerEnd then none
    else parseLoop ((data.take headerEnd).drop headerStart) (data.drop headerEnd)

/-! ### Page decoder (db.rs, `PageType`, `Page`, `Page::from_data`, `Page::get_record`) -/

/-- Model of `PageType` (db.rs 40-46). -/
inductive PageType where
  | tableLeaf : PageType
  | tableInterior : PageType
  | indexLeaf : PageType
  | indexInterior : PageType
  deriving DecidableEq, Repr

/-- Model of `Page` (db.rs 48-55): `data` is the payload, the page bytes from the end of
the cell-pointer array onwards. -/
structure Page where
  typ : PageType
  cell_pointers : List Nat
  right_most_child : Option Nat
  data : List Nat
  deriving Repr

/-- Byte access `data[i]`; only used below after the corresponding length
guard, so the default is never taken on the in-range paths. -/
def byteAt (data : List Nat) (i : Nat) : Nat :=
  data.getD i 0

/-- Model of `.chunks(2)` over a slice of even length (the cell-pointer array has
`2 * cell_count` bytes). -/
def chunkPairs : List Nat → List (Nat × Nat)
  | a :: b :: rest => (a, b) :: chunkPairs rest
  | _ => []

/-- The `.map(|chunk| u16::from_be_bytes(...) as usize - offset)` step of
`Page::from_data` (db.rs 92-95).  The `usize` subtraction is unchecked in the
source; a raw pointer smaller than the payload start underflows (a panic in a
debug build, wrap-around garbage in release), modelled as `none`. -/
def normalizePointers (offset : Nat) : List (Nat × Nat) → Option (List Nat)
  | [] => some []
  | (hi, lo) :: rest =>
      let raw := hi * 256 + lo
      if raw < offset then none
      else (normalizePointers offset rest).map (fun ps => (raw - offset) :: ps)

/-- Model of `Page::from_data` (db.rs 58-105).  Guards reproduce, in evaluation order,
every point where the source can panic: `data[0]` on an empty buffer, the
unmatched page-kind `panic!`, `data[8..=11]` for interior pages, `data[3..=4]`,
`(page_size as usize) - data.len()` underflow, and the slice
`data[cell_pointer_start..data_offset]`. -/
def from_data (page_size : Nat) (data : List Nat) : Option Page :=
  match data.head? with
  | none => none
  | some b0 =>
      let typ? : Option PageType :=
        if b0 = 13 then some .tableLeaf
        else if b0 = 5 then some .tableInterior
        else if b0 = 10 then some .indexLeaf
        else if b0 = 2 then some .indexInterior
        else none
      match typ? with
      | none => none
      | some typ =>
          let interior : Bool := typ == .tableInterior || typ == .indexInterior
          if interior ∧ data.length < 12 then none
          else
            let right_most_child : Option Nat :=
              if interior then
                some (((byteAt data 8 * 256 + byteAt data 9) * 256 + byteAt data 10) * 256
                  + byteAt data 11)
              else none
            if data.length < 5 then none
            else
              let cell_count := byteAt data 3 * 256 + byteAt data 4
              let headerLen := if interior then 12 else 8
              let data_offset := headerLen + cell_count * 2
              if page_size < data.length then none
              else
                let offset := page_size - data.length + data_offset
                if data.length < data_offset then none
                else
                  match normalizePointers offset
                      (chunkPairs ((data.take data_offset).drop headerLen)) with
                  | none => none
                  | some cps => some ⟨typ, cps, right_most_child, data.drop data_offset⟩

/-- Model of `Page::get_record` (db.rs 208-217).  Each guard is a point where the source
panics on an out-of-range slice start (`data[*offset..]` inside `get_varint`,
and `&self.data[offset..]` before `parse_record_values`); the payload-size
varint is read and discarded exactly as in the source. -/
def get_record (data : List Nat) (pointer : Nat) : Option Record :=
  if data.length < pointer then none
  else
    let off1 := (get_varint data pointer).2
    if data.length < off1 then none
    else
      let id := (get_varint data off1).1
      let off2 := (get_varint data off1).2
      if data.length < off2 then none
      else (parse_record_values (data.drop off2)).map (fun values => ⟨id, values⟩)

/-- The iterator underlying `Page::records` (db.rs 219-221) materialised:
`get_record` runs on every cell pointer in order, and a panic in any of them
(`none`) aborts the whole enumeration, as it does any Rust iterator consumer —
including `records().count()`. -/
def getRecords (data : List Nat) : List Nat → Option (List Record)
  | [] => some []
  | ptr :: rest =>
      match get_record data ptr with
      | none => none
      | some r => (getRecords data rest).map (fun l => r :: l)

/-- Model of `Page::records` (db.rs 219-221):
`self.cell_pointers.iter().map(|i| self.get_record(*i))`, with the panic of any
`get_record` aborting the enumeration. -/
def records (p : Page) : Option (List Record) :=
  getRecords p.data p.cell_pointers

/-- The `select count(*) from` handler of `main.rs` (lines 77-99): it loads the
table's root page only and prints `table_page.records().count()`.  `count`
consumes the iterator, so `get_record` is evaluated on every cell of that one
page: the printed value is the root page's cell count when every cell decodes,
and the program panics (printing nothing) when any cell's decoding panics. -/
def count_star (p : Page) : Option Nat :=
  (records p).map List.length

/-- The `for &pointer in &self.cell_pointers` loop of `Page::get_child_pages`
(db.rs 234-245): cells whose pointer has no room for the 4-byte child page
number within the payload are silently skipped. -/
def childPagesLoop (data : List Nat) : List Nat → List Nat
  | [] => []
  | ptr :: rest =>
      if ptr + 4 ≤ data.length then
        (((byteAt data ptr * 256 + byteAt data (ptr + 1)) * 256 + byteAt data (ptr + 2)) * 256
            + byteAt data (ptr + 3)) :: childPagesLoop data rest
      else childPagesLoop data rest

/-- Model of `Page::get_child_pages` (db.rs 227-256): leaves have no children;
interior pages list each cell's 4-byte left-child page number in cell order and
append the rightmost child. -/
def get_child_pages (p : Page) : List Nat :=
  match p.typ with
  | .tableLeaf => []
  | .tableInterior | .indexInterior =>
      childPagesLoop p.data p.cell_pointers ++
        (match p.right_most_child with
          | some r => [r]
          | none => [])
  | _ => []

/-! ### Table B-trees (db.rs, `Database::traverse_btree`, `Database::search_table_btree`)

A table B-tree already read from disk: a leaf holds its records in cell order;
an interior node holds, in cell order, one `(child_page, rowid_key, child)` per
cell — `Page::get_table_interior_entry` returns `(child_page, rowid_key)` and
the child page number is what `load_page` receives, so the subtree reached
through it is attached — plus the optional rightmost child with its page
number (`Page.right_most_child`). -/

/-- A materialised table B-tree. -/
inductive TableTree where
  | leaf (records : List Record) : TableTree
  | interior (entries : List (Nat × Nat × TableTree))
      (rightMost : Option (Nat × TableTree)) : TableTree

/-- The error message of `Database::load_page` for page number 0 (db.rs 399-401). -/
def invalidPageMsg : String := "Invalid page number: page numbers start from 1"

mutual

/-- Model of `Database::traverse_btree` (db.rs 436-462): a leaf contributes its records
in cell order; an interior page contributes `Page::get_child_pages`
(db.rs 227-256: each cell's left child in cell order, then the rightmost
child), recursing into each child and silently skipping child page number 0
(`if child_page_num == 0 { continue; }`). -/
def traverse_btree : TableTree → List Record
  | .leaf recs => recs
  | .interior entries rm => traverseEntries entries rm
  termination_by t => sizeOf t

/-- The `for child_page_num in child_pages` loop of `Database::traverse_btree`
over the cell children followed by the rightmost child. -/
def traverseEntries : List (Nat × Nat × TableTree) → Option (Nat × TableTree) → List Record
  | [], none => []
  | [], some (p, c) => if p = 0 then [] else traverse_btree c
  | (p, _, c) :: rest, rm =>
      (if p = 0 then [] else traverse_btree c) ++ traverseEntries rest rm
  termination_by entries rm => sizeOf entries + sizeOf rm

end

/-- Model of `Database::get_all_records` (db.rs 426-434): traverse from the root with an
empty accumulator. -/
def get_all_records (t : TableTree) : List Record :=
  traverse_btree t

mutual

/-- All records stored in the tree, leaf cell order and children
left-to-right, with no page-number filtering — the reference enumeration
against which the traversal is compared. -/
def allRecords : TableTree → List Record
  | .leaf recs => recs
  | .interior entries rm => allRecordsLoop entries rm
  termination_by t => sizeOf t

/-- List part of `allRecords`. -/
def allRecordsLoop : List (Nat × Nat × TableTree) → Option (Nat × TableTree) → List Record
  | [], none => []
  | [], some (_, c) => allRecords c
  | (_, _, c) :: rest, rm => allRecords c ++ allRecordsLoop rest rm
  termination_by entries rm => sizeOf entries + sizeOf rm

end

mutual

/-- Every child page number in the tree is nonzero (true of any well-formed
database file: page numbers start at 1). -/
def noZeroChild : TableTree → Bool
  | .leaf _ => true
  | .interior entries rm => noZeroLoop entries rm
  termination_by t => sizeOf t

/-- List part of `noZeroChild`. -/
def noZeroLoop : List (Nat × Nat × TableTree) → Option (Nat × TableTree) → Bool
  | [], none => true
  | [], some (p, c) => decide (p ≠ 0) && noZeroChild c
  | (p, _, c) :: rest, rm => decide (p ≠ 0) && noZeroChild c && noZeroLoop rest rm
  termination_by entries rm => sizeOf entries + sizeOf rm

end

/-- Rowids of all records stored in a tree, in storage order. -/
def idsOf (t : TableTree) : List Nat :=
  (allRecords t).map Record.id

/-- Adjacent strict sortedness of a list of rowids. -/
def strictSorted : List Nat → Bool
  | [] => true
  | [_] => true
  | a :: b :: rest => decide (a < b) && strictSorted (b :: rest)

mutual

/-- The table B-tree invariant maintained by the SQLite file writer, which the
navigator relies on: leaf records strictly increase by rowid, and on interior
pages every rowid below a cell's left child is at most that cell's key, while
everything stored to the right of the cell (later children and the rightmost
child) is strictly greater, with keys increasing. -/
def tableWf : TableTree → Bool
  | .leaf recs => strictSorted (recs.map Record.id)
  | .interior entries rm => tableEntriesWf entries rm
  termination_by t => sizeOf t

/-- List part of `tableWf`. -/
def tableEntriesWf : List (Nat × Nat × TableTree) → Option (Nat × TableTree) → Bool
  | [], none => true
  | [], some (_, c) => tableWf c
  | (_, k, c) :: rest, rm =>
      tableWf c && (idsOf c).all (fun i => decide (i ≤ k)) && tableBelowAll k rest rm
        && tableEntriesWf rest rm
  termination_by entries rm => sizeOf entries + sizeOf rm

/-- All keys and stored rowids strictly to the right of a cell with key `k`
exceed `k`. -/
def tableBelowAll (k : Nat) : List (Nat × Nat × TableTree) → Option (Nat × TableTree) → Bool
  | [], none => true
  | [], some (_, c) => (idsOf c).all (fun i => decide (k < i))
  | (_, k2, c) :: rest, rm =>
      decide (k < k2) && (idsOf c).all (fun i => decide (k < i)) && tableBelowAll k rest rm
  termination_by entries rm => sizeOf entries + sizeOf rm

end

mutual

/-- Model of `Database::search_table_btree` (db.rs 554-605): on a `TableLeaf`, return
the first record whose rowid equals the target, else `None`; on a
`TableInterior`, run the descent loop over the interior entries. -/
def search_table_btree : TableTree → Nat → Except String (Option Record)
  | .leaf recs, target => .ok (recs.find? fun r => r.id == target)
  | .interior entries rm, target => searchInteriorLoop entries rm target
  termination_by t => sizeOf t

/-- The `for (i, (child_page, key_rowid)) in entries` loop of
`Database::search_table_btree` (db.rs 575-598): descend on `target < key` and
on `target == key` (both into the cell's left child), otherwise continue; after
the loop descend into the rightmost child when present, else return `Ok(None)`.
Descending into page number 0 is `Database::load_page` bailing. -/
def searchInteriorLoop :
    List (Nat × Nat × TableTree) → Option (Nat × TableTree) → Nat →
      Except String (Option Record)
  | [], none, _ => .ok none
  | [], some (p, c), target =>
      if p = 0 then .error invalidPageMsg else search_table_btree c target
  | (p, k, c) :: rest, rm, target =>
      if target < k then
        (if p = 0 then .error invalidPageMsg else search_table_btree c target)
      else if target = k then
        (if p = 0 then .error invalidPageMsg else search_table_btree c target)
      else searchInteriorLoop rest rm target
  termination_by entries rm _ => sizeOf entries + sizeOf rm

end

/-- Model of `Database::fetch_record_by_rowid` (db.rs 545-552): delegates to the B-tree
search. -/
def fetch_record_by_rowid (t : TableTree) (rowid : Nat) : Except String (Option Record) :=
  search_table_btree t rowid

/-- Model of `Database::fetch_records_by_rowids` (db.rs 608-621): fetch each rowid in
input order, keep the `Some` results, silently drop the `None`s, propagate the
first `Err`. -/
def fetch_records_by_rowids (t : TableTree) : List Nat → Except String (List Record)
  | [] => .ok []
  | rid :: rest =>
      match fetch_record_by_rowid t rid with
      | .error e => .error e
      | .ok none => fetch_records_by_rowids t rest
      | .ok (some rec) => (fetch_records_by_rowids t rest).map (fun l => rec :: l)

/-- The per-rowid outcome of `fetch_record_by_rowid` with errors flattened to
`none`; used to state what the batched fetch returns. -/
def fetchedOption (t : TableTree) (rid : Nat) : Option Record :=
  match fetch_record_by_rowid t rid with
  | .ok o => o
  | .error _ => none

/-! ### Index B-trees (db.rs, `Database::traverse_index`)

An index B-tree storing `(TEXT key, INTEGER rowid)` entries.  Keys are byte
lists; Rust's `str::cmp` is byte-wise lexicographic comparison.  A leaf holds
`Page::index_leaf_entries`, `(key, rowid)` pairs in cell order; an interior
node holds, in cell order, one `(separator_key, child_page, child)` per cell —
`Page::get_index_interior_entry` returns `(country_key, child_page)`, and the
trailing rowid stored in the interior cell's record is unused by the engine
and not represented — plus the optional rightmost child with its page
number. -/

/-- A materialised index B-tree. -/
inductive IndexTree where
  | leaf (entries : List (List Nat × Nat)) : IndexTree
  | interior (entries : List (List Nat × Nat × IndexTree))
      (rightMost : Option (Nat × IndexTree)) : IndexTree

/-- Byte-wise lexicographic three-way comparison, the semantics of Rust's
`str::cmp` / byte-slice `cmp` used in `Database::traverse_index`. -/
def byteCmp : List Nat → List Nat → Ordering
  | [], [] => .eq
  | [], _ :: _ => .lt
  | _ :: _, [] => .gt
  | a :: xs, b :: ys =>
      if a < b then .lt else if b < a then .gt else byteCmp xs ys

/-- The `IndexLeaf` arm of `Database::traverse_index` (db.rs 491-499): scan the
leaf entries in cell order, skipping while `country < target`, collecting the
rowid on `country == target`, and breaking at the first `country > target`. -/
def collectLeafRowids : List (List Nat × Nat) → List Nat → List Nat
  | [], _ => []
  | (country, rowid) :: rest, target =>
      match byteCmp country target with
      | .lt => collectLeafRowids rest target
      | .eq => rowid :: collectLeafRowids rest target
      | .gt => []

mutual

/-- Model of `Database::traverse_index` (db.rs 481-542).  Rowids are returned in the
order the source pushes them into its accumulator. -/
def traverse_index : IndexTree → List Nat → Except String (List Nat)
  | .leaf es, target => .ok (collectLeafRowids es target)
  | .interior entries rm, target => indexInteriorLoop entries rm target
  termination_by t => sizeOf t

/-- The `for (i, (country_key, child_page)) in entries` loop of the
`IndexInterior` arm (db.rs 505-536): on `target < key` descend into the cell's
left child and stop; on `target == key` descend into the left child, then into
the next sibling child (or, when the cell is the last, into the rightmost
child), and stop; on `target > key` continue; after the loop descend into the
rightmost child when present.  Descending into page number 0 is
`Database::load_page` bailing. -/
def indexInteriorLoop :
    List (List Nat × Nat × IndexTree) → Option (Nat × IndexTree) → List Nat →
      Except String (List Nat)
  | [], none, _ => .ok []
  | [], some (p, c), target =>
      if p = 0 then .error invalidPageMsg else traverse_index c target
  | (k, p, c) :: rest, rm, target =>
      match byteCmp target k with
      | .lt => if p = 0 then .error invalidPageMsg else traverse_index c target
      | .eq =>
          match (if p = 0 then Except.error invalidPageMsg else traverse_index c target) with
          | .error e => .error e
          | .ok leftIds =>
              match nextSiblingDescend rest rm target with
              | .error e => .error e
              | .ok rightIds => .ok (leftIds ++ rightIds)
      | .gt => indexInteriorLoop rest rm target
  termination_by entries rm _ => sizeOf entries + sizeOf rm

/-- The second descent of the `Equal` arm (db.rs 519-524): into
`entries[i + 1]`'s left child when the matching cell is not the last one, else
into the rightmost child when present, else nothing. -/
def nextSiblingDescend :
    List (List Nat × Nat × IndexTree) → Option (Nat × IndexTree) → List Nat →
      Except String (List Nat)
  | (_, p2, c2) :: _, _, target =>
      if p2 = 0 then .error invalidPageMsg else traverse_index c2 target
  | [], some (p, c), target =>
      if p = 0 then .error invalidPageMsg else traverse_index c target
  | [], none, _ => .ok []
  termination_by entries rm _ => sizeOf entries + sizeOf rm

end

/-- Model of `Database::lookup_rowids_by_country` (db.rs 470-479): traverse the index
from the root with an empty accumulator. -/
def lookup_rowids_by_country (t : IndexTree) (target : List Nat) : Except String (List Nat) :=
  traverse_index t target

mutual

/-- All `(key, rowid)` entries stored in the index tree, leaves in cell order
and children left-to-right.  The engine reads data entries only from leaves
(`Page::index_leaf_entries`); the record embedded in an interior cell serves
only as a separator, its rowid being ignored by `get_index_interior_entry`. -/
def storedIndexEntries : IndexTree → List (List Nat × Nat)
  | .leaf es => es
  | .interior entries rm => storedEntriesLoop entries rm
  termination_by t => sizeOf t

/-- List part of `storedIndexEntries`. -/
def storedEntriesLoop :
    List (List Nat × Nat × IndexTree) → Option (Nat × IndexTree) → List (List Nat × Nat)
  | [], none => []
  | [], some (_, c) => storedIndexEntries c
  | (_, _, c) :: rest, rm => storedIndexEntries c ++ storedEntriesLoop rest rm
  termination_by entries rm => sizeOf entries + sizeOf rm

end

/-- Byte-wise `≤` on keys. -/
def byteLe (a b : List Nat) : Bool :=
  byteCmp a b ≠ Ordering.gt

/-- Adjacent non-decreasing sortedness of a key list. -/
def byteSorted : List (List Nat) → Bool
  | [] => true
  | [_] => true
  | a :: b :: rest => byteLe a b && byteSorted (b :: rest)

mutual

/-- All keys appearing in the index tree: leaf entry keys and interior
separator keys. -/
def indexKeys : IndexTree → List (List Nat)
  | .leaf es => es.map Prod.fst
  | .interior entries rm => indexKeysLoop entries rm
  termination_by t => sizeOf t

/-- List part of `indexKeys`. -/
def indexKeysLoop :
    List (List Nat × Nat × IndexTree) → Option (Nat × IndexTree) → List (List Nat)
  | [], none => []
  | [], some (_, c) => indexKeys c
  | (k, _, c) :: rest, rm => k :: (indexKeys c ++ indexKeysLoop rest rm)
  termination_by entries rm => sizeOf entries + sizeOf rm

end

mutual

/-- The index B-tree invariant maintained by the SQLite file writer projected
to the compared key column: leaf keys are non-decreasing in cell order, and on
interior pages every key below a cell's left child is at most the cell's
separator key, while every key to the right of the cell (later separators,
their subtrees and the rightmost child) is at least it.  Because index entries
are full `(key, rowid)` pairs ordered lexicographically, equal key-column
values can legitimately sit on both sides of a separator. -/
def indexWf : IndexTree → Bool
  | .leaf es => byteSorted (es.map Prod.fst)
  | .interior entries rm => indexEntriesWf entries rm
  termination_by t => sizeOf t

/-- List part of `indexWf`. -/
def indexEntriesWf :
    List (List Nat × Nat × IndexTree) → Option (Nat × IndexTree) → Bool
  | [], none => true
  | [], some (_, c) => indexWf c
  | (k, _, c) :: rest, rm =>
      indexWf c && (indexKeys c).all (fun k2 => byteLe k2 k) && indexAboveAll k rest rm
        && indexEntriesWf rest rm
  termination_by entries rm => sizeOf entries + sizeOf rm

/-- All keys strictly to the right of a cell with separator `k` are at least
`k`. -/
def indexAboveAll (k : List Nat) :
    List (List Nat × Nat × IndexTree) → Option (Nat × IndexTree) → Bool
  | [], none => true
  | [], some (_, c) => (indexKeys c).all (fun k2 => byteLe k k2)
  | (k2, _, c) :: rest, rm =>
      byteLe k k2 && (indexKeys c).all (fun k3 => byteLe k k3) && indexAboveAll k rest rm
  termination_by entries rm => sizeOf entries + sizeOf rm

end

/-! ### Concrete instances used as counterexamples and witnesses -/

/-- A well-formed index B-tree in which entries with key `"A" = [65]` straddle
both separators: one entry in each of the two cell children and one in the
rightmost child. -/
def ixT1 : IndexTree :=
  .interior [([65], 2, .leaf [([65], 1)]), ([65], 3, .leaf [([65], 2)])]
    (some (4, .leaf [([65], 3)]))

/-- Sample records of a two-leaf table. -/
def recA : Record := ⟨1, [RecordValue.int 10]⟩

/-- Second sample record. -/
def recB : Record := ⟨2, [RecordValue.int 20]⟩

/-- Third sample record. -/
def recC : Record := ⟨3, [RecordValue.int 30]⟩

/-- Fourth sample record. -/
def recD : Record := ⟨4, [RecordValue.int 40]⟩

/-- A well-formed two-level table B-tree with four records: an interior root
with one cell (key 2, left child holding rowids 1 and 2) and a rightmost child
holding rowids 3 and 4. -/
def tbT1 : TableTree :=
  .interior [(2, 2, .leaf [recA, recB])] (some (3, .leaf [recC, recD]))

/-- A 32-byte table-leaf page whose single cell pointer (raw big-endian
`0xFF00 = 65280`) lies far outside the page: byte 0 is the `TableLeaf` tag 13,
bytes 3-4 give cell count 1, bytes 8-9 are the cell pointer, and the remaining
22 bytes are payload. -/
def c8data : List Nat :=
  [13, 0, 0, 0, 1, 0, 0, 0, 255, 0] ++ List.replicate 22 0

/-- The 32-byte interior root page of a four-row table (page size 32): kind 5
(`TableInterior`), cell count 1 (bytes 3-4), rightmost child page 3
(bytes 8-11), one cell pointer `0x000E = 14` (bytes 12-13), and the cell
`[0, 0, 0, 2, 0x02]` — left child page 2, rowid key 2 — at payload offset 0. -/
def c9root : List Nat :=
  [5, 0, 0, 0, 1, 0, 0, 0, 0, 0, 0, 3, 0, 14] ++ [0, 0, 0, 2, 2] ++ List.replicate 13 0

/-- The 32-byte leaf page 2 of the same table: kind 13 (`TableLeaf`), cell
count 2, cell pointers 12 and 17, holding the records with rowids 1 and 2
(each cell is `[payload_size, rowid, header_size 2, serial type 1, value]`). -/
def c9leaf1 : List Nat :=
  [13, 0, 0, 0, 2, 0, 0, 0, 0, 12, 0, 17] ++ [3, 1, 2, 1, 10, 3, 2, 2, 1, 20]
    ++ List.replicate 10 0

/-- The 32-byte leaf page 3 of the same table, holding the records with rowids
3 and 4. -/
def c9leaf2 : List Nat :=
  [13, 0, 0, 0, 2, 0, 0, 0, 0, 12, 0, 17] ++ [3, 3, 2, 1, 30, 3, 4, 2, 1, 40]
    ++ List.replicate 10 0

/-! ## Theorems -/

/-! ### Varint codec: claims C5 and C6 -/

/-- The loop of `get_varint` never finds a terminator in a buffer all of whose
bytes have the continuation bit set; it accumulates seven bits from every byte
(the ninth and beyond included) and reports no consumed count. -/
theorem varintLoop_no_terminator :
    ∀ (l : List Nat) (v : Nat), (∀ b ∈ l, 128 ≤ b % 256) →
      varintLoop v l = (l.foldl (fun a b => a * 128 % 2 ^ 64 + b % 128) v, none)
  | [], v, _ => by simp [varintLoop]
  | b :: rest, v, h => by
      have hb : ¬(b % 256 < 128) := by
        have := h b (List.mem_cons_self _ _)
        omega
      have hrest : ∀ x ∈ rest, 128 ≤ x % 256 := fun x hx => h x (List.mem_cons_of_mem _ hx)
      simp only [varintLoop, if_neg hb]
      rw [varintLoop_no_terminator rest _ hrest]
      simp

/-- C5: the claim states that `get_varint` reads at most nine bytes and gives
the ninth byte all eight of its bits.  The code does neither: on the buffer
`[0x80 ×8, 0xFF, 0x01]` the SQLite varint rule stops after nine bytes with
value `0xFF = 255`, while `get_varint` treats the ninth byte `0xFF` as one more
seven-bit continuation byte, consumes a tenth byte, and returns
`(0x7F <<< 7) + 1 = 16257` having advanced the offset by 10. -/
theorem claim_C5 :
    get_varint [128, 128, 128, 128, 128, 128, 128, 128, 255, 1] 0 = (16257, 10) := by
  decide

/-- C6 counterexample: on the buffer `[0x80]`, which ends before any byte with
a clear continuation bit, `get_varint` does not fail — there is no failure path
in the function at all — but returns the accumulated value 0 and advances the
offset to the end of the buffer. -/
theorem counterexample_C6 :
    (∀ b ∈ [128], 128 ≤ b % 256) ∧ get_varint [128] 0 = (0, 1) := by
  decide

/-- C6 amended: when the buffer ends before a byte with the continuation bit
clear, `get_varint` returns (rather than failing) the value accumulated from
the low seven bits of every remaining byte, and advances the offset by the full
buffer length (`*offset += data.len()` in the source). -/
theorem claim_C6 (data : List Nat) (offset : Nat)
    (h : ∀ b ∈ data.drop offset, 128 ≤ b % 256) :
    get_varint data offset =
      ((data.drop offset).foldl (fun a b => a * 128 % 2 ^ 64 + b % 128) 0,
        offset + data.length) := by
  rw [get_varint, varintLoop_no_terminator _ 0 h]

/-- C6 witness: the amended behaviour at the concrete truncated buffer
`[0x80, 0x81]`. -/
theorem claim_C6_witness : get_varint [128, 129] 0 = (1, 2) :=
  (claim_C6 [128, 129] 0 (by decide)).trans (by decide)

/-! ### Integer decoding: claim C7 -/

/-- C7: the claim states that `{1,2,3,4,6}`-byte integers are sign-extended, so
the one-byte stored value `0xFF` decodes to `-1`.  The code zero-fills the
8-byte buffer before `i64::from_be_bytes`, i.e. zero-extends: the record
`[0x02, 0x01, 0xFF]` (header size 2, serial type 1, payload byte `0xFF`)
decodes to the integer 255, not `-1`. -/
theorem claim_C7 :
    parse_record_values [2, 1, 255] = some [RecordValue.int 255] := by
  simp [parse_record_values, parseLoop, varintTake, get_varint, varintLoop,
    get_be_bytes, i64_from_be_bytes, beNat]

/-! ### Page decoding bounds: claim C8 -/

/-- C8 counterexample: `from_data` accepts the 32-byte page `c8data` and
produces the cell offset 65270 on a payload of 22 bytes — the offset is not
within the payload, violating `0 ≤ cell_offsets[i] ≤ len(payload) − 1` —
and decoding the cell at that offset aborts (`get_record` models the Rust
panic as `none`) instead of producing an error result. -/
theorem counterexample_C8 :
    (from_data 32 c8data).map Page.cell_pointers = some [65270] ∧
    (from_data 32 c8data).map (fun p => p.data.length) = some 22 ∧
    ¬(65270 ≤ 22 - 1) ∧
    (from_data 32 c8data).map (fun p => get_record p.data 65270) = some none := by
  refine ⟨by decide, by decide, by decide, by decide⟩

/-- C8 amended: cell offsets are not bounds-checked against the payload —
`from_data` happily decodes a page whose cell offset lies past the payload
end — and decoding a cell whose offset exceeds the payload aborts (the Rust
slice panic, modelled as `none`) rather than reading out of bounds or
returning an in-band error record. -/
theorem claim_C8 :
    (∀ (data : List Nat) (pointer : Nat), data.length < pointer → get_record data pointer = none)
    ∧ (from_data 32 c8data).map Page.cell_pointers = some [65270] := by
  constructor
  · intro data pointer h
    simp only [get_record, if_pos h]
  · decide

/-- C8 witness: the amended out-of-range behaviour at a concrete buffer. -/
theorem claim_C8_witness : get_record [] 5 = none :=
  claim_C8.1 [] 5 (by decide)

/-! ### The `select count(*)` handler: claim C9 -/

/-- Decoding every cell of a page yields exactly one record per cell
pointer. -/
theorem getRecords_length :
    ∀ (data : List Nat) (ptrs : List Nat) (recs : List Record),
      getRecords data ptrs = some recs → recs.length = ptrs.length
  | _, [], recs, h => by
      have : some [] = some recs := by simpa [getRecords] using h
      cases this
      rfl
  | data, ptr :: rest, recs, h => by
      rw [getRecords] at h
      cases hg : get_record data ptr with
      | none => rw [hg] at h; cases h
      | some r =>
          rw [hg] at h
          cases hr : getRecords data rest with
          | none => rw [hr] at h; cases h
          | some rs =>
              rw [hr] at h
              have : r :: rs = recs := by simpa using h
              rw [← this]
              simp [getRecords_length data rest rs hr]

/-- C9 counterexample: a concrete four-row table stored on three pages — an
interior root (`c9root`, one cell pointing to child page 2, rightmost child
page 3) over the leaves `c9leaf1` (rowids 1, 2) and `c9leaf2` (rowids 3, 4).
The handler loads only the root page; `records().count()` evaluates
`get_record` on the root's interior cell `[0, 0, 0, 2, 0x02]`, whose bytes
make `parse_record_values` read `header_size = 0` and panic (`header_size - 1`
underflow), so the program aborts (`count_star = none`) and prints nothing —
in particular not the table's total row count 4. -/
theorem counterexample_C9 :
    (from_data 32 c9root).map count_star = some none ∧
    (from_data 32 c9root).map get_child_pages = some [2, 3] ∧
    (from_data 32 c9leaf1).map (fun p => (records p).map (fun l => l.map Record.id))
      = some (some [1, 2]) ∧
    (from_data 32 c9leaf2).map (fun p => (records p).map (fun l => l.map Record.id))
      = some (some [3, 4]) := by
  refine ⟨?_, ?_, ?_, ?_⟩
  · simp [c9root, from_data, byteAt, chunkPairs, normalizePointers, count_star, records,
      getRecords, get_record, get_varint, varintLoop, parse_record_values]
  · simp [c9root, from_data, byteAt, chunkPairs, normalizePointers, get_child_pages,
      childPagesLoop]
  · simp [c9leaf1, from_data, byteAt, chunkPairs, normalizePointers, records, getRecords,
      get_record, get_varint, varintLoop, parse_record_values, parseLoop, varintTake,
      get_be_bytes, i64_from_be_bytes, beNat]
  · simp [c9leaf2, from_data, byteAt, chunkPairs, normalizePointers, records, getRecords,
      get_record, get_varint, varintLoop, parse_record_values, parseLoop, varintTake,
      get_be_bytes, i64_from_be_bytes, beNat]

/-- C9 amended: the handler evaluates `records().count()` on the table's root
page only and never traverses the B-tree: when every cell of the root page
decodes, it prints that page's cell count — the table's total row count
exactly when the root is a leaf holding the entire table, as on the two-row
single-leaf table `c9leaf1` — and when decoding any root cell panics (as it
does on the interior-root bytes of the counterexample), the program aborts
instead of printing. -/
theorem claim_C9 :
    (∀ (p : Page) (recs : List Record), records p = some recs →
        count_star p = some p.cell_pointers.length) ∧
    (∀ p : Page, records p = none → count_star p = none) ∧
    (from_data 32 c9leaf1).map count_star = some (some 2) := by
  refine ⟨?_, ?_, ?_⟩
  · intro p recs h
    rw [count_star, h]
    simp [getRecords_length p.data p.cell_pointers recs (by simpa [records] using h)]
  · intro p h
    rw [count_star, h]
    rfl
  · simp [c9leaf1, from_data, byteAt, chunkPairs, normalizePointers, count_star, records,
      getRecords, get_record, get_varint, varintLoop, parse_record_values, parseLoop,
      varintTake, get_be_bytes, i64_from_be_bytes, beNat]

/-- C9 witness: the amended cell-count behaviour applied to a concrete
single-cell leaf page whose one record decodes. -/
theorem claim_C9_witness :
    count_star (Page.mk PageType.tableLeaf [0] none [3, 1, 2, 1, 10]) = some 1 := by
  have h := claim_C9.1 (Page.mk PageType.tableLeaf [0] none [3, 1, 2, 1, 10])
    [⟨1, [RecordValue.int 10]⟩]
    (by simp [records, getRecords, get_record, get_varint, varintLoop,
      parse_record_values, parseLoop, varintTake, get_be_bytes, i64_from_be_bytes, beNat])
  simpa using h

/-! ### Point lookup by rowid: claim C2 -/

/-- The interior descent loop of `search_table_btree` is the `find?`-based
rule of the specification: the loop's two descending branches
(`target < key` and `target == key`) coincide with descending into the first
cell whose key is `≥ target`, and falling off the loop's end with descending
into the rightmost child. -/
theorem searchInteriorLoop_eq_find (entries : List (Nat × Nat × TableTree))
    (rm : Option (Nat × TableTree)) (target : Nat) :
    searchInteriorLoop entries rm target =
      match entries.find? (fun e => decide (target ≤ e.2.1)) with
      | some e =>
          if e.1 = 0 then .error invalidPageMsg else search_table_btree e.2.2 target
      | none =>
          match rm with
          | some (p, c) => if p = 0 then .error invalidPageMsg else search_table_btree c target
          | none => .ok none := by
  induction entries with
  | nil =>
      cases rm with
      | none => simp [searchInteriorLoop]
      | some pc => obtain ⟨p, c⟩ := pc; simp [searchInteriorLoop]
  | cons e rest ih =>
      obtain ⟨p, k, c⟩ := e
      rcases Nat.lt_trichotomy target k with h | h | h
      · rw [List.find?_cons_of_pos _ (by simp; omega)]
        simp [searchInteriorLoop, h]
      · rw [List.find?_cons_of_pos _ (by simp; omega)]
        simp [searchInteriorLoop, h]
      · rw [List.find?_cons_of_neg _ (by simp; omega)]
        have h1 : ¬target < k := by omega
        have h2 : ¬target = k := by omega
        simp only [searchInteriorLoop, if_neg h1, if_neg h2]
        exact ih

/-- C2: on a `TableLeaf`, `search_table_btree` returns the record whose rowid
matches the target (the first one found in cell order) or `None`; on a
`TableInterior` it descends into the child of the first cell whose rowid key is
`≥ target`, and into the rightmost child when no cell qualifies (descending
into page 0 fails as `load_page` does). -/
theorem claim_C2 :
    (∀ (recs : List Record) (target : Nat),
        search_table_btree (.leaf recs) target = .ok (recs.find? fun r => r.id == target)) ∧
    (∀ (entries : List (Nat × Nat × TableTree)) (rm : Option (Nat × TableTree)) (target : Nat),
        search_table_btree (.interior entries rm) target =
          match entries.find? (fun e => decide (target ≤ e.2.1)) with
          | some e =>
              if e.1 = 0 then .error invalidPageMsg else search_table_btree e.2.2 target
          | none =>
              match rm with
              | some (p, c) =>
                  if p = 0 then .error invalidPageMsg else search_table_btree c target
              | none => .ok none) := by
  constructor
  · intro recs target
    simp [search_table_btree]
  · intro entries rm target
    rw [show search_table_btree (.interior entries rm) target
        = searchInteriorLoop entries rm target by simp [search_table_btree]]
    exact searchInteriorLoop_eq_find entries rm target

/-! ### Index equality lookup: claim C1 -/

/-- Byte-wise comparison returns `eq` exactly on equal byte lists. -/
theorem byteCmp_eq_iff : ∀ (a b : List Nat), byteCmp a b = Ordering.eq ↔ a = b
  | [], [] => by simp [byteCmp]
  | [], _ :: _ => by simp [byteCmp]
  | _ :: _, [] => by simp [byteCmp]
  | a :: xs, b :: ys => by
      by_cases h1 : a < b
      · simp only [byteCmp, if_pos h1]
        constructor
        · intro h; cases h
        · rintro ⟨⟩; omega
      · by_cases h2 : b < a
        · simp only [byteCmp, if_neg h1, if_pos h2]
          constructor
          · intro h; cases h
          · rintro ⟨⟩; omega
        · have hab : a = b := by omega
          subst hab
          simp only [byteCmp, if_neg h1, if_neg h2]
          rw [byteCmp_eq_iff xs ys]
          simp

/-- Every rowid collected by the leaf scan comes from a leaf entry whose key
equals the target byte-for-byte. -/
theorem collectLeafRowids_sound :
    ∀ (es : List (List Nat × Nat)) (target : List Nat) (rid : Nat),
      rid ∈ collectLeafRowids es target → (target, rid) ∈ es
  | [], _, _, h => by simp [collectLeafRowids] at h
  | (country, rowid) :: rest, target, rid, h => by
      rcases hcmp : byteCmp country target with _ | _ | _
      · rw [collectLeafRowids, hcmp] at h
        exact List.mem_cons_of_mem _ (collectLeafRowids_sound rest target rid h)
      · rw [collectLeafRowids, hcmp] at h
        have hk : country = target := (byteCmp_eq_iff country target).mp hcmp
        subst hk
        rcases List.mem_cons.mp h with rfl | h2
        · exact List.mem_cons_self _ _
        · exact List.mem_cons_of_mem _ (collectLeafRowids_sound rest country rid h2)
      · rw [collectLeafRowids, hcmp] at h
        cases h

mutual

/-- Soundness of the index walk: a successfully returned rowid is stored in
some leaf under a key byte-equal to the target. -/
theorem traverse_index_sound :
    ∀ (t : IndexTree) (target : List Nat) (l : List Nat),
      traverse_index t target = .ok l → ∀ rid ∈ l, (target, rid) ∈ storedIndexEntries t
  | .leaf es, target, l, h => by
      intro rid hr
      have hl : collectLeafRowids es target = l := by
        simpa [traverse_index] using h
      rw [← hl] at hr
      simpa [storedIndexEntries] using collectLeafRowids_sound es target rid hr
  | .interior entries rm, target, l, h => by
      intro rid hr
      have h2 : indexInteriorLoop entries rm target = .ok l := by
        simpa [traverse_index] using h
      simpa [storedIndexEntries] using
        indexInteriorLoop_sound entries rm target l h2 rid hr
  termination_by t => sizeOf t

/-- Soundness of the interior descent loop. -/
theorem indexInteriorLoop_sound :
    ∀ (entries : List (List Nat × Nat × IndexTree)) (rm : Option (Nat × IndexTree))
      (target : List Nat) (l : List Nat),
      indexInteriorLoop entries rm target = .ok l →
        ∀ rid ∈ l, (target, rid) ∈ storedEntriesLoop entries rm
  | [], none, target, l, h => by
      intro rid hr
      have : ([] : List Nat) = l := by simpa [indexInteriorLoop] using h
      rw [← this] at hr
      cases hr
  | [], some (p, c), target, l, h => by
      intro rid hr
      by_cases hp : p = 0
      · rw [indexInteriorLoop, if_pos hp] at h
        cases h
      · rw [indexInteriorLoop, if_neg hp] at h
        simpa [storedEntriesLoop] using traverse_index_sound c target l h rid hr
  | (k, p, c) :: rest, rm, target, l, h => by
      intro rid hr
      rcases hcmp : byteCmp target k with _ | _ | _
      · -- target < separator: only the left child was explored
        rw [indexInteriorLoop, hcmp] at h
        by_cases hp : p = 0
        · rw [if_pos hp] at h; cases h
        · rw [if_neg hp] at h
          simp only [storedEntriesLoop]
          exact List.mem_append_left _ (traverse_index_sound c target l h rid hr)
      · -- target = separator: left child plus the next sibling
        rw [indexInteriorLoop, hcmp] at h
        rcases hL : (if p = 0 then Except.error invalidPageMsg
            else traverse_index c target) with e | leftIds
        · rw [hL] at h; cases h
        · rw [hL] at h
          rcases hR : nextSiblingDescend rest rm target with e | rightIds
          · rw [hR] at h; cases h
          · rw [hR] at h
            have hl : leftIds ++ rightIds = l := by
              simpa using h
            rw [← hl] at hr
            by_cases hp : p = 0
            · rw [if_pos hp] at hL; cases hL
            · rw [if_neg hp] at hL
              simp only [storedEntriesLoop]
              rcases List.mem_append.mp hr with hin | hin
              · exact List.mem_append_left _
                  (traverse_index_sound c target leftIds hL rid hin)
              · exact List.mem_append_right _
                  (nextSiblingDescend_sound rest rm target rightIds hR rid hin)
      · -- target > separator: continue with the remaining cells
        rw [indexInteriorLoop, hcmp] at h
        simp only [storedEntriesLoop]
        exact List.mem_append_right _
          (indexInteriorLoop_sound rest rm target l h rid hr)
  termination_by entries rm _ => sizeOf entries + sizeOf rm

/-- Soundness of the second descent of the `Equal` arm. -/
theorem nextSiblingDescend_sound :
    ∀ (entries : List (List Nat × Nat × IndexTree)) (rm : Option (Nat × IndexTree))
      (target : List Nat) (l : List Nat),
      nextSiblingDescend entries rm target = .ok l →
        ∀ rid ∈ l, (target, rid) ∈ storedEntriesLoop entries rm
  | (k2, p2, c2) :: rest2, rm, target, l, h => by
      intro rid hr
      by_cases hp : p2 = 0
      · rw [nextSiblingDescend, if_pos hp] at h; cases h
      · rw [nextSiblingDescend, if_neg hp] at h
        simp only [storedEntriesLoop]
        exact List.mem_append_left _ (traverse_index_sound c2 target l h rid hr)
  | [], some (p, c), target, l, h => by
      intro rid hr
      by_cases hp : p = 0
      · rw [nextSiblingDescend, if_pos hp] at h; cases h
      · rw [nextSiblingDescend, if_neg hp] at h
        simpa [storedEntriesLoop] using traverse_index_sound c target l h rid hr
  | [], none, target, l, h => by
      intro rid hr
      have : ([] : List Nat) = l := by simpa [nextSiblingDescend] using h
      rw [← this] at hr
      cases hr
  termination_by entries rm _ => sizeOf entries + sizeOf rm

end

/-- C1 amended: (soundness) every rowid returned by
`lookup_rowids_by_country` is stored under a key byte-equal to the target; and
(descent) at an interior separator equal to the target the loop descends into
that separator's left child and then into the next sibling child — or the
rightmost child when the separator is the last cell — and stops.  The original
claim's completeness (`exactly the rowids`) is false: entries under a key that
straddles more than one separator can be missed (see the counterexample). -/
theorem claim_C1 :
    (∀ (t : IndexTree) (target : List Nat) (l : List Nat),
        lookup_rowids_by_country t target = .ok l →
          ∀ rid ∈ l, (target, rid) ∈ storedIndexEntries t) ∧
    (∀ (k : List Nat) (p : Nat) (c : IndexTree)
        (rest : List (List Nat × Nat × IndexTree)) (rm : Option (Nat × IndexTree))
        (target : List Nat),
        byteCmp target k = .eq →
          indexInteriorLoop ((k, p, c) :: rest) rm target =
            match (if p = 0 then Except.error invalidPageMsg
                else traverse_index c target) with
            | .error e => .error e
            | .ok leftIds =>
                match nextSiblingDescend rest rm target with
                | .error e => .error e
                | .ok rightIds => .ok (leftIds ++ rightIds)) := by
  constructor
  · intro t target l h
    exact traverse_index_sound t target l (by simpa [lookup_rowids_by_country] using h)
  · intro k p c rest rm target hcmp
    rw [indexInteriorLoop, hcmp]

/-- C1 counterexample: `ixT1` is a well-formed index B-tree whose three
entries under key `[65]` straddle both separators; the lookup returns only the
rowids 1 and 2 gathered from the matching cell's child and its immediate
sibling, missing the stored entry `([65], 3)` in the rightmost child — so the
lookup does not return exactly the rowids stored under the key. -/
theorem counterexample_C1 :
    indexWf ixT1 = true ∧
    traverse_index ixT1 [65] = .ok [1, 2] ∧
    ([65], 3) ∈ storedIndexEntries ixT1 ∧
    (3 : Nat) ∉ [1, 2] := by
  refine ⟨?_, ?_, ?_, ?_⟩
  · simp [ixT1, indexWf, indexEntriesWf, indexAboveAll, indexKeys, indexKeysLoop,
      byteSorted, byteLe, byteCmp]
  · simp [ixT1, traverse_index, indexInteriorLoop, nextSiblingDescend,
      collectLeafRowids, byteCmp]
  · simp [ixT1, storedIndexEntries, storedEntriesLoop]
  · simp

/-- C1 witness: the soundness part applied to the concrete lookup on `ixT1`;
rowid 1 returned for key `[65]` is indeed stored under `[65]`. -/
theorem claim_C1_witness : ([65], 1) ∈ storedIndexEntries ixT1 :=
  claim_C1.1 ixT1 [65] [1, 2]
    (by simp [ixT1, lookup_rowids_by_country, traverse_index, indexInteriorLoop,
      nextSiblingDescend, collectLeafRowids, byteCmp])
    1 (by simp)

/-! ### Full scan: claim C3 -/

mutual

/-- With no zero child page number in the tree, the traversal skips nothing
and emits exactly the stored records. -/
theorem traverse_eq_allRecords :
    ∀ t, noZeroChild t = true → traverse_btree t = allRecords t
  | .leaf recs, _ => by simp [traverse_btree, allRecords]
  | .interior entries rm, h => by
      have h2 : noZeroLoop entries rm = true := by simpa [noZeroChild] using h
      simp [traverse_btree, allRecords, traverseEntries_eq_allLoop entries rm h2]
  termination_by t => sizeOf t

/-- List part of `traverse_eq_allRecords`. -/
theorem traverseEntries_eq_allLoop :
    ∀ entries rm, noZeroLoop entries rm = true →
      traverseEntries entries rm = allRecordsLoop entries rm
  | [], none, _ => by simp [traverseEntries, allRecordsLoop]
  | [], some (p, c), h => by
      simp only [noZeroLoop, Bool.and_eq_true, decide_eq_true_eq] at h
      simp [traverseEntries, allRecordsLoop, h.1, traverse_eq_allRecords c h.2]
  | (p, k, c) :: rest, rm, h => by
      simp only [noZeroLoop, Bool.and_eq_true, decide_eq_true_eq] at h
      simp [traverseEntries, allRecordsLoop, h.1.1,
        traverse_eq_allRecords c h.1.2, traverseEntries_eq_allLoop rest rm h.2]
  termination_by entries rm => sizeOf entries + sizeOf rm

end

/-- Lemma: `strictSorted` decides strict pairwise sortedness. -/
theorem strictSorted_iff : ∀ l : List Nat, strictSorted l = true ↔ List.Pairwise (· < ·) l
  | [] => by simp [strictSorted]
  | [a] => by simp [strictSorted]
  | a :: b :: rest => by
      rw [strictSorted, Bool.and_eq_true, decide_eq_true_eq, strictSorted_iff (b :: rest)]
      constructor
      · rintro ⟨hab, hp⟩
        refine List.Pairwise.cons ?_ hp
        intro x hx
        rcases List.mem_cons.mp hx with rfl | hx
        · exact hab
        · exact hab.trans (List.rel_of_pairwise_cons hp hx)
      · intro hp
        exact ⟨List.rel_of_pairwise_cons hp (List.mem_cons_self _ _), hp.of_cons⟩

/-- Everything stored to the right of an interior cell with key `k` has rowid
strictly above `k`. -/
theorem tableBelowAll_gt :
    ∀ (entries : List (Nat × Nat × TableTree)) (rm : Option (Nat × TableTree)) (k : Nat),
      tableBelowAll k entries rm = true →
        ∀ r ∈ allRecordsLoop entries rm, k < r.id
  | [], none, k, _, r, hr => by simp [allRecordsLoop] at hr
  | [], some (p, c), k, h, r, hr => by
      rw [tableBelowAll] at h
      have hr2 : r ∈ allRecords c := by simpa [allRecordsLoop] using hr
      have := List.all_eq_true.mp h r.id (by
        simpa [idsOf] using List.mem_map_of_mem Record.id hr2)
      exact of_decide_eq_true this
  | (p, k2, c) :: rest, rm, k, h, r, hr => by
      rw [tableBelowAll] at h
      simp only [Bool.and_eq_true, decide_eq_true_eq] at h
      obtain ⟨⟨hk2, hall⟩, hrest⟩ := h
      rcases List.mem_append.mp (by simpa [allRecordsLoop] using hr) with hin | hin
      · have := List.all_eq_true.mp hall r.id (by
          simpa [idsOf] using List.mem_map_of_mem Record.id hin)
        exact of_decide_eq_true this
      · exact tableBelowAll_gt rest rm k hrest r hin

mutual

/-- The table invariant makes the stored records strictly increasing by rowid
in storage order. -/
theorem tableWf_pairwise :
    ∀ t, tableWf t = true → List.Pairwise (· < ·) ((allRecords t).map Record.id)
  | .leaf recs, h => by
      have := (strictSorted_iff (recs.map Record.id)).mp (by simpa [tableWf] using h)
      simpa [allRecords] using this
  | .interior entries rm, h => by
      have h2 : tableEntriesWf entries rm = true := by simpa [tableWf] using h
      simpa [allRecords] using tableEntriesWf_pairwise entries rm h2
  termination_by t => sizeOf t

/-- List part of `tableWf_pairwise`. -/
theorem tableEntriesWf_pairwise :
    ∀ entries rm, tableEntriesWf entries rm = true →
      List.Pairwise (· < ·) ((allRecordsLoop entries rm).map Record.id)
  | [], none, _ => by simp [allRecordsLoop]
  | [], some (p, c), h => by
      have := tableWf_pairwise c (by simpa [tableEntriesWf] using h)
      simpa [allRecordsLoop] using this
  | (p, k, c) :: rest, rm, h => by
      rw [tableEntriesWf] at h
      simp only [Bool.and_eq_true] at h
      obtain ⟨⟨⟨hc, hle⟩, hgt⟩, hrest⟩ := h
      have p1 := tableWf_pairwise c hc
      have p2 := tableEntriesWf_pairwise rest rm hrest
      simp only [allRecordsLoop, List.map_append]
      rw [List.pairwise_append]
      refine ⟨p1, p2, ?_⟩
      intro a ha b hb
      obtain ⟨ra, hra, rfl⟩ := List.mem_map.mp ha
      obtain ⟨rb, hrb, rfl⟩ := List.mem_map.mp hb
      have h1 : ra.id ≤ k :=
        of_decide_eq_true (List.all_eq_true.mp hle ra.id
          (by simpa [idsOf] using List.mem_map_of_mem Record.id hra))
      have h2 : k < rb.id := tableBelowAll_gt rest rm k hgt rb hrb
      omega
  termination_by entries rm => sizeOf entries + sizeOf rm

end

/-- C3: on a table B-tree with the writer's invariant and no zero child page,
the full scan emits every stored record, in strictly ascending rowid order;
moreover a child cell with page number 0 is silently skipped by the
traversal. -/
theorem claim_C3 (t : TableTree) (hwf : tableWf t = true) (hz : noZeroChild t = true) :
    traverse_btree t = allRecords t ∧
    List.Pairwise (· < ·) ((traverse_btree t).map Record.id) ∧
    ∀ (k : Nat) (c : TableTree) (rest : List (Nat × Nat × TableTree))
      (rm : Option (Nat × TableTree)),
      traverse_btree (.interior ((0, k, c) :: rest) rm) =
        traverse_btree (.interior rest rm) := by
  have heq := traverse_eq_allRecords t hz
  refine ⟨heq, ?_, ?_⟩
  · rw [heq]
    exact tableWf_pairwise t hwf
  · intro k c rest rm
    simp [traverse_btree, traverseEntries]

/-- C3 witness: the concrete four-record tree `tbT1` scans to its stored
records in ascending rowid order. -/
theorem claim_C3_witness :
    traverse_btree tbT1 = allRecords tbT1 ∧
    List.Pairwise (· < ·) ((traverse_btree tbT1).map Record.id) :=
  ⟨(claim_C3 tbT1
      (by simp [tbT1, tableWf, tableEntriesWf, tableBelowAll, idsOf, allRecords,
        allRecordsLoop, strictSorted, recA, recB, recC, recD])
      (by simp [tbT1, noZeroChild, noZeroLoop])).1,
    (claim_C3 tbT1
      (by simp [tbT1, tableWf, tableEntriesWf, tableBelowAll, idsOf, allRecords,
        allRecordsLoop, strictSorted, recA, recB, recC, recD])
      (by simp [tbT1, noZeroChild, noZeroLoop])).2.1⟩

/-! ### Round trip scan/lookup: claim C4 -/

/-- In a leaf whose rowids are strictly sorted (hence distinct), the linear
scan `find?` returns the member record itself. -/
theorem find_of_pairwise :
    ∀ (recs : List Record) (r : Record),
      List.Pairwise (· < ·) (recs.map Record.id) → r ∈ recs →
        (recs.find? fun x => x.id == r.id) = some r
  | [], r, _, hr => by cases hr
  | a :: rest, r, hp, hr => by
      rw [List.map_cons] at hp
      by_cases h : a.id = r.id
      · have har : a = r := by
          rcases List.mem_cons.mp hr with rfl | hmem
          · rfl
          · exfalso
            have : a.id < r.id :=
              List.rel_of_pairwise_cons hp (List.mem_map_of_mem Record.id hmem)
            omega
        rw [List.find?_cons_of_pos _ (by simp [h])]
        rw [har]
      · have hmem : r ∈ rest := by
          rcases List.mem_cons.mp hr with rfl | hmem
          · exact absurd rfl h
          · exact hmem
        rw [List.find?_cons_of_neg _ (by simp [h])]
        exact find_of_pairwise rest r hp.of_cons hmem

mutual

/-- The point lookup finds every record stored in a well-formed tree with
nonzero child pages, returning that very record. -/
theorem search_table_btree_found :
    ∀ (t : TableTree) (r : Record), tableWf t = true → noZeroChild t = true →
      r ∈ allRecords t → search_table_btree t r.id = .ok (some r)
  | .leaf recs, r, hwf, _, hr => by
      have hp : List.Pairwise (· < ·) (recs.map Record.id) :=
        (strictSorted_iff _).mp (by simpa [tableWf] using hwf)
      have hr2 : r ∈ recs := by simpa [allRecords] using hr
      rw [show search_table_btree (.leaf recs) r.id
          = .ok (recs.find? fun x => x.id == r.id) by simp [search_table_btree]]
      rw [find_of_pairwise recs r hp hr2]
  | .interior entries rm, r, hwf, hz, hr => by
      rw [show search_table_btree (.interior entries rm) r.id
          = searchInteriorLoop entries rm r.id by simp [search_table_btree]]
      exact searchInteriorLoop_found entries rm r (by simpa [tableWf] using hwf)
        (by simpa [noZeroChild] using hz) (by simpa [allRecords] using hr)
  termination_by t => sizeOf t

/-- List part of `search_table_btree_found`: the interior loop descends into
the unique child subtree that stores the target record. -/
theorem searchInteriorLoop_found :
    ∀ (entries : List (Nat × Nat × TableTree)) (rm : Option (Nat × TableTree)) (r : Record),
      tableEntriesWf entries rm = true → noZeroLoop entries rm = true →
      r ∈ allRecordsLoop entries rm → searchInteriorLoop entries rm r.id = .ok (some r)
  | [], none, r, _, _, hr => by simp [allRecordsLoop] at hr
  | [], some (p, c), r, hwf, hz, hr => by
      have hwf2 : tableWf c = true := by simpa [tableEntriesWf] using hwf
      simp only [noZeroLoop, Bool.and_eq_true, decide_eq_true_eq] at hz
      have hr2 : r ∈ allRecords c := by simpa [allRecordsLoop] using hr
      rw [searchInteriorLoop, if_neg hz.1]
      exact search_table_btree_found c r hwf2 hz.2 hr2
  | (p, k, c) :: rest, rm, r, hwf, hz, hr => by
      rw [tableEntriesWf] at hwf
      simp only [Bool.and_eq_true] at hwf
      obtain ⟨⟨⟨hc, hle⟩, hgt⟩, hrest⟩ := hwf
      simp only [noZeroLoop, Bool.and_eq_true, decide_eq_true_eq] at hz
      obtain ⟨⟨hp0, hcz⟩, hrz⟩ := hz
      rcases List.mem_append.mp (by simpa [allRecordsLoop] using hr) with hin | hin
      · have hidle : r.id ≤ k :=
          of_decide_eq_true (List.all_eq_true.mp hle r.id
            (by simpa [idsOf] using List.mem_map_of_mem Record.id hin))
        have hfound := search_table_btree_found c r hc hcz hin
        rcases lt_or_eq_of_le hidle with hlt | heq
        · rw [searchInteriorLoop, if_pos hlt, if_neg hp0]
          exact hfound
        · rw [searchInteriorLoop, if_neg (by omega), if_pos heq, if_neg hp0]
          exact hfound
      · have hkgt : k < r.id := tableBelowAll_gt rest rm k hgt r hin
        rw [searchInteriorLoop, if_neg (by omega), if_neg (by omega)]
        exact searchInteriorLoop_found rest rm r hrest hrz hin
  termination_by entries rm _ => sizeOf entries + sizeOf rm

end

/-- C4: for every record produced by the full scan of a well-formed table
B-tree with nonzero child pages, the point lookup at that record's rowid
returns `Some` of exactly that record — identical rowid and values. -/
theorem claim_C4 (t : TableTree) (r : Record) (hwf : tableWf t = true)
    (hz : noZeroChild t = true) (hr : r ∈ traverse_btree t) :
    fetch_record_by_rowid t r.id = .ok (some r) := by
  rw [traverse_eq_allRecords t hz] at hr
  rw [fetch_record_by_rowid]
  exact search_table_btree_found t r hwf hz hr

/-- C4 witness: fetching rowid 3 of the concrete tree `tbT1` returns the
scanned record `recC`. -/
theorem claim_C4_witness : fetch_record_by_rowid tbT1 recC.id = .ok (some recC) :=
  claim_C4 tbT1 recC
    (by simp [tbT1, tableWf, tableEntriesWf, tableBelowAll, idsOf, allRecords,
      allRecordsLoop, strictSorted, recA, recB, recC, recD])
    (by simp [tbT1, noZeroChild, noZeroLoop])
    (by simp [tbT1, traverse_btree, traverseEntries])

/-! ### Batched fetch: claim C10 -/

/-- C10: when every individual fetch succeeds (no I/O or page error), the
batched fetch returns, in the input list's order, exactly the records the
single-rowid fetch finds, silently omitting — with no error — every rowid
that is absent from the table's B-tree. -/
theorem claim_C10 (t : TableTree) (rids : List Nat)
    (h : ∀ rid ∈ rids, ∃ o, fetch_record_by_rowid t rid = .ok o) :
    fetch_records_by_rowids t rids = .ok (rids.filterMap (fetchedOption t)) := by
  induction rids with
  | nil => simp [fetch_records_by_rowids]
  | cons rid rest ih =>
      obtain ⟨o, ho⟩ := h rid (List.mem_cons_self _ _)
      have htail : ∀ x ∈ rest, ∃ o, fetch_record_by_rowid t x = .ok o :=
        fun x hx => h x (List.mem_cons_of_mem _ hx)
      cases o with
      | none =>
          rw [fetch_records_by_rowids, ho, List.filterMap_cons]
          have : fetchedOption t rid = none := by rw [fetchedOption, ho]
          rw [this, ih htail]
      | some rec =>
          rw [fetch_records_by_rowids, ho, List.filterMap_cons]
          have : fetchedOption t rid = some rec := by rw [fetchedOption, ho]
          rw [this, ih htail]
          rfl

/-- C10 witness: on the concrete tree `tbT1`, fetching rowids 3 (present) and
99 (absent) returns just the record with rowid 3, in order and without
error. -/
theorem claim_C10_witness : fetch_records_by_rowids tbT1 [3, 99] = .ok [recC] :=
  (claim_C10 tbT1 [3, 99] (by
    intro rid hrid
    rcases List.mem_cons.mp hrid with rfl | hrid2
    · exact ⟨some recC, by simp [fetch_record_by_rowid, tbT1, search_table_btree,
        searchInteriorLoop, recA, recB, recC, recD]⟩
    · rcases List.mem_cons.mp hrid2 with rfl | hrid3
      · exact ⟨none, by simp [fetch_record_by_rowid, tbT1, search_table_btree,
          searchInteriorLoop, recA, recB, recC, recD]⟩
      · cases hrid3)).trans
  (by simp [fetchedOption, fetch_record_by_rowid, tbT1, search_table_btree,
    searchInteriorLoop, recA, recB, recC, recD])

end Sqlite
